/- Verification of a matrix-multiplication library offering two engines:
   a fixed-layout matrix (`Matrix<T, R, C>`, rows stored as nested arrays)
   and a flat-layout matrix (`DynMatrics<T, R, C>`, one contiguous buffer
   with row-major stride indexing).  Each engine has a sequential
   `dot_product` and a worker-partitioned `dot_product_in_parallel`.

   Embedding conventions:
   * the element type is any `α` with the operations the source requires
     (`Default` becomes `Zero`, plus `Add` and `Mul`);
   * the fixed-layout backing store `Box<[[T; C]; R]>` is embedded as a
     total rectangular accessor `Fin R → Fin C → α`;
   * the flat-layout backing store `Vec<T>` is embedded as `List α`; the
     constructors maintain the invariant `data.length = R * C`;
   * fallible calls return `Option`: `none` models a panic.  In
     `dot_product_in_parallel`, `(X + parallel - 1) / parallel` divides by
     zero when `parallel = 0` (a Rust panic), and in the fixed-layout
     engine `chunks_mut(chunk_size)` panics when `chunk_size = 0`;
   * the flat-layout parallel loop `for _ in 0..parallel { if start >= X
     { break; } ... }` is embedded as a recursion on the remaining
     iteration count (`fuel`), each step performing the work of the
     closure handed to one spawned worker. -/
import Mathlib

namespace MatrixDemo

variable {α : Type}

/-- Fixed-layout matrix: `R` rows of `C` elements each. -/
structure Matrix (α : Type) (R C : Nat) where
  data : Fin R → Fin C → α

/-- Flat-layout matrix: one buffer of length `R * C` in row-major order. -/
structure DynMatrics (α : Type) (R C : Nat) where
  data : List α
deriving DecidableEq

/-- The `Default` impl for `Matrix`: every element is the element type's zero. -/
def Matrix.default {R C : Nat} [Zero α] : Matrix α R C :=
  ⟨fun _ _ => 0⟩

/-- The `From<[[T; Y]; X]>` impl for `Matrix`: wrap an already-correctly-shaped
row-major source (given here as a list of row lists). -/
def Matrix.fromRows {R C : Nat} [Zero α] (rows : List (List α)) : Matrix α R C :=
  ⟨fun i j => (rows.getD i []).getD j 0⟩

/-- The `Index<usize>` impl for `Matrix`: `&self.data[index]` is bounds-checked
against the row count `R`; out of range panics (`none`). -/
def Matrix.row {R C : Nat} (m : Matrix α R C) (i : Nat) : Option (Fin C → α) :=
  if h : i < R then some (m.data ⟨i, h⟩) else none

/-- The source's `Matrix::dot_product`: triple-nested loop; cell `(i, j)` accumulates
`sum = sum + self[i][k] * other[k][j]` for `k` ascending, seeded at the
zero value. -/
def Matrix.dotProduct {X Y Z : Nat} [Zero α] [Add α] [Mul α]
    (m : Matrix α X Y) (m1 : Matrix α Y Z) : Matrix α X Z :=
  ⟨fun i j => (List.finRange Y).foldl (fun sum k => sum + m.data i k * m1.data k j) 0⟩

/-- The source's `Matrix::dot_product_in_parallel`: computes
`chunk_size = (X + parallel - 1) / parallel` (division by zero when
`parallel = 0`, modeled as `none`), then hands `chunks_mut(chunk_size)`
of the result rows to workers (`chunks_mut` panics when `chunk_size = 0`,
modeled as `none`).  The worker for chunk `i` writes its local row
`local_index` at global row `start_index + local_index` where
`start_index = i * chunk_size`; for the result row `r` the chunk index is
`r / chunk_size` and the local index is `r % chunk_size`. -/
def Matrix.dotProductInParallel {X Y Z : Nat} [Zero α] [Add α] [Mul α]
    (m : Matrix α X Y) (m1 : Matrix α Y Z) (parallel : Nat) : Option (Matrix α X Z) :=
  if parallel = 0 then
    none
  else
    let chunkSize := (X + parallel - 1) / parallel
    if chunkSize = 0 then
      none
    else
      some ⟨fun r z =>
        have hr : r.val / chunkSize * chunkSize + r.val % chunkSize < X := by
          rw [Nat.div_add_mod']
          exact r.isLt
        (List.finRange Y).foldl
          (fun sum y =>
            sum + m.data ⟨r.val / chunkSize * chunkSize + r.val % chunkSize, hr⟩ y * m1.data y z)
          0⟩

/-- The `Default` impl for `DynMatrics`: `vec![T::default(); X * Y]`. -/
def DynMatrics.default {X Y : Nat} [Zero α] : DynMatrics α X Y :=
  ⟨List.replicate (X * Y) 0⟩

/-- The `TryFrom<Vec<T>>` impl for `DynMatrics`: succeeds exactly when the source
length equals `X * Y`; otherwise the shape-mismatch error (`none`). -/
def DynMatrics.tryFrom {X Y : Nat} (data : List α) : Option (DynMatrics α X Y) :=
  if data.length = X * Y then some ⟨data⟩ else none

/-- The `Index<usize>` impl for `DynMatrics`: the row view is the sub-slice
`&self.data[index * C .. index * C + C]`; Rust slicing panics (`none`)
exactly when the requested end exceeds the buffer length. -/
def DynMatrics.row {R C : Nat} (m : DynMatrics α R C) (i : Nat) : Option (List α) :=
  if i * C + C ≤ m.data.length then some ((m.data.drop (i * C)).take C) else none

/-- The source's `DynMatrics::dot_product`: same triple loop as the fixed engine, but
addressing the flat buffers with computed offsets: reads `self.data[i * Y
+ k]` and `matrix1.data[k * Z + j]`, writes `result.data[i * Z + j]` into
a default-initialized result buffer. -/
def DynMatrics.dotProduct {X Y Z : Nat} [Zero α] [Add α] [Mul α]
    (m : DynMatrics α X Y) (m1 : DynMatrics α Y Z) : DynMatrics α X Z :=
  ⟨(List.range X).foldl (fun acc i =>
      (List.range Z).foldl (fun acc j =>
        acc.set (i * Z + j)
          ((List.range Y).foldl
            (fun sum k => sum + m.data.getD (i * Y + k) 0 * m1.data.getD (k * Z + j) 0)
            0))
        acc)
    ((DynMatrics.default : DynMatrics α X Z)).data⟩

/-- The closure spawned for one chunk `[start, e)` of
`DynMatrics::dot_product_in_parallel`: its result slice starts at flat
offset `start * Z` and its slice of the left operand at `start * Y`, so
local row `i`, column `j` is written at `start * Z + (i * Z + j)` with the
sum over `k` of `local_matrix0[i * Y + k] * matrix1.data[k * Z + j]`. -/
def dynChunkTask [Zero α] [Add α] [Mul α] (a b : List α) (Y Z start e : Nat)
    (acc : List α) : List α :=
  (List.range (e - start)).foldl (fun acc2 i =>
    (List.range Z).foldl (fun acc3 j =>
      acc3.set (start * Z + (i * Z + j))
        ((List.range Y).foldl
          (fun sum k => sum + a.getD (start * Y + (i * Y + k)) 0 * b.getD (k * Z + j) 0)
          0))
      acc2)
    acc

/-- The chunking loop of `DynMatrics::dot_product_in_parallel`:
`for _ in 0..parallel` (the remaining iteration count is the first `Nat`
argument), breaking once `start_index >= X`, otherwise running one chunk
task over `[start, min (start + chunk_size) X)` and advancing. -/
def dynParRun [Zero α] [Add α] [Mul α] (a b : List α) (X Y Z cs : Nat) :
    Nat → Nat → List α → List α
  | 0, _, acc => acc
  | fuel + 1, start, acc =>
    if X ≤ start then acc
    else
      dynParRun a b X Y Z cs fuel (min (start + cs) X)
        (dynChunkTask a b Y Z start (min (start + cs) X) acc)

/-- Number of workers spawned by the chunking loop of
`DynMatrics::dot_product_in_parallel` (one `scope.spawn` per
non-break iteration). -/
def dynSpawnCount (X cs : Nat) : Nat → Nat → Nat
  | 0, _ => 0
  | fuel + 1, start =>
    if X ≤ start then 0 else dynSpawnCount X cs fuel (min (start + cs) X) + 1

/-- The source's `DynMatrics::dot_product_in_parallel`: computes
`chunk_size = (X + parallel - 1) / parallel` (division by zero when
`parallel = 0`, modeled as `none`), then runs the chunking loop over a
default-initialized result buffer. -/
def DynMatrics.dotProductInParallel {X Y Z : Nat} [Zero α] [Add α] [Mul α]
    (m : DynMatrics α X Y) (m1 : DynMatrics α Y Z) (parallel : Nat) :
    Option (DynMatrics α X Z) :=
  if parallel = 0 then
    none
  else
    let chunkSize := (X + parallel - 1) / parallel
    some ⟨dynParRun m.data m1.data X Y Z chunkSize parallel 0
      ((DynMatrics.default : DynMatrics α X Z)).data⟩

/-- Modelled from the spec: the identity matrix ("1s on diagonal, 0s
elsewhere") used by the identity property; the source has no identity
constructor. -/
def Matrix.identity {n : Nat} [Zero α] [One α] : Matrix α n n :=
  ⟨fun i j => if i = j then 1 else 0⟩

/-- Modelled from the spec: the flat-layout identity matrix; flat
position `p = k * n + j` is on the diagonal exactly when
`p / n = p % n`. -/
def DynMatrics.identity {n : Nat} [Zero α] [One α] : DynMatrics α n n :=
  ⟨(List.range (n * n)).map (fun p => if p / n = p % n then 1 else 0)⟩

/-- Folding two step functions that agree on the traversed elements
yields the same result. -/
theorem foldl_congr_mem {β γ : Type} (l : List γ) (f g : β → γ → β)
    (h : ∀ s k, k ∈ l → f s k = g s k) (b : β) : l.foldl f b = l.foldl g b := by
  induction l generalizing b with
  | nil => rfl
  | cons a l ih =>
      rw [List.foldl_cons, List.foldl_cons, h b a (by simp)]
      exact ih (fun s k hk => h s k (by simp [hk])) _

/-- Writing at a different index leaves a `getD` lookup unchanged. -/
theorem getD_set_of_ne (l : List α) {i p : Nat} (h : i ≠ p) (v d : α) :
    (l.set i v).getD p d = l.getD p d := by
  rcases Nat.lt_or_ge p l.length with hp | hp
  · rw [List.getD_eq_getElem _ _ (by simpa using hp), List.getD_eq_getElem _ _ hp,
      List.getElem_set_ne h]
  · rw [List.getD_eq_default _ _ (by simpa using hp), List.getD_eq_default _ _ hp]

/-- Writing at an in-bounds index makes `getD` there return the written value. -/
theorem getD_set_of_eq (l : List α) {i : Nat} (h : i < l.length) (v d : α) :
    (l.set i v).getD i d = v := by
  rw [List.getD_eq_getElem _ _ (by simpa using h), List.getElem_set_self]

/-- A row of consecutive writes at `base + j`, `j < Z`, preserves the
buffer length. -/
theorem rowFold_length (Z base : Nat) (g : Nat → α) (l : List α) :
    ((List.range Z).foldl (fun acc j => acc.set (base + j) (g j)) l).length = l.length := by
  induction Z with
  | zero => rfl
  | succ Z ih =>
      rw [List.range_succ, List.foldl_append]
      simp only [List.foldl_cons, List.foldl_nil, List.length_set]
      exact ih

/-- A row of consecutive writes at `base + j`, `j < Z`, does not affect
positions outside `[base, base + Z)`. -/
theorem rowFold_getD_outside (Z base : Nat) (g : Nat → α) (l : List α) (p : Nat) (d : α)
    (hp : p < base ∨ base + Z ≤ p) :
    ((List.range Z).foldl (fun acc j => acc.set (base + j) (g j)) l).getD p d = l.getD p d := by
  induction Z with
  | zero => rfl
  | succ Z ih =>
      rw [List.range_succ, List.foldl_append]
      simp only [List.foldl_cons, List.foldl_nil]
      rw [getD_set_of_ne _ (by omega) _ _]
      exact ih (by omega)

/-- A row of consecutive writes at `base + j`, `j < Z`, stores `g j` at
position `base + j`. -/
theorem rowFold_getD_mem (Z base : Nat) (g : Nat → α) (l : List α) (j : Nat) (d : α)
    (hj : j < Z) (hl : base + j < l.length) :
    ((List.range Z).foldl (fun acc j => acc.set (base + j) (g j)) l).getD (base + j) d = g j := by
  induction Z with
  | zero => omega
  | succ Z ih =>
      rw [List.range_succ, List.foldl_append]
      simp only [List.foldl_cons, List.foldl_nil]
      rcases Nat.lt_or_ge j Z with h | h
      · rw [getD_set_of_ne _ (by omega) _ _]
        exact ih h
      · have hjZ : j = Z := by omega
        subst hjZ
        exact getD_set_of_eq _ (by rw [rowFold_length]; exact hl) _ _

/-- A grid of writes (rows `i < N`, positions `rowPos i + j` for `j < Z`)
preserves the buffer length. -/
theorem rowsFold_length (N Z : Nat) (rowPos : Nat → Nat) (f : Nat → Nat → α) (l : List α) :
    ((List.range N).foldl (fun acc i =>
      (List.range Z).foldl (fun acc2 j => acc2.set (rowPos i + j) (f i j)) acc) l).length
      = l.length := by
  induction N with
  | zero => rfl
  | succ N ih =>
      rw [List.range_succ, List.foldl_append]
      simp only [List.foldl_cons, List.foldl_nil]
      rw [rowFold_length]
      exact ih

/-- A grid of writes with row bases `rowPos i = b + i * Z` does not affect
positions below `b` or at or above `b + N * Z`. -/
theorem rowsFold_getD_outside (N Z : Nat) (rowPos : Nat → Nat) (b : Nat)
    (hpos : ∀ i, rowPos i = b + i * Z) (f : Nat → Nat → α) (l : List α) (p : Nat) (d : α)
    (hp : p < b ∨ b + N * Z ≤ p) :
    ((List.range N).foldl (fun acc i =>
      (List.range Z).foldl (fun acc2 j => acc2.set (rowPos i + j) (f i j)) acc) l).getD p d
      = l.getD p d := by
  induction N with
  | zero => rfl
  | succ N ih =>
      rw [List.range_succ, List.foldl_append]
      simp only [List.foldl_cons, List.foldl_nil]
      have hN := hpos N
      have hsm : (N + 1) * Z = N * Z + Z := Nat.succ_mul N Z
      rw [rowFold_getD_outside _ _ _ _ _ _ (by omega)]
      exact ih (by omega)

/-- A grid of writes with row bases `rowPos i = b + i * Z` stores `f i j`
at position `rowPos i + j` (each cell is written exactly once; later rows
write only at strictly larger positions). -/
theorem rowsFold_getD (N Z : Nat) (rowPos : Nat → Nat) (b : Nat)
    (hpos : ∀ i, rowPos i = b + i * Z) (f : Nat → Nat → α) (l : List α)
    (i j p : Nat) (d : α) (hi : i < N) (hj : j < Z) (hp : p = rowPos i + j)
    (hl : p < l.length) :
    ((List.range N).foldl (fun acc i =>
      (List.range Z).foldl (fun acc2 j => acc2.set (rowPos i + j) (f i j)) acc) l).getD p d
      = f i j := by
  subst hp
  induction N with
  | zero => omega
  | succ N ih =>
      rw [List.range_succ, List.foldl_append]
      simp only [List.foldl_cons, List.foldl_nil]
      rcases Nat.lt_or_ge i N with h | h
      · have h1 : rowPos i + j < rowPos N := by
          have e1 := hpos i
          have e2 := hpos N
          have h3 : (i + 1) * Z ≤ N * Z := Nat.mul_le_mul_right Z h
          have h4 : (i + 1) * Z = i * Z + Z := Nat.succ_mul i Z
          omega
        rw [rowFold_getD_outside _ _ _ _ _ _ (Or.inl h1)]
        exact ih h
      · have hiN : i = N := by omega
        subst hiN
        exact rowFold_getD_mem _ _ _ _ _ _ hj (by rw [rowsFold_length]; exact hl)

/-- Ceiling division `(X + p - 1) / p` is positive when `X` is. -/
theorem ceilDiv_pos (X p : Nat) (hp : 1 ≤ p) (hX : 1 ≤ X) : 1 ≤ (X + p - 1) / p := by
  rw [Nat.le_div_iff_mul_le hp]
  omega

/-- Ceiling division `(X + p - 1) / p` is zero exactly when `X` is. -/
theorem ceilDiv_eq_zero (p : Nat) (hp : 1 ≤ p) : (0 + p - 1) / p = 0 :=
  Nat.div_eq_of_lt (by omega)

/-- The ceiling-division chunk size covers all `X` rows in `p` chunks. -/
theorem le_mul_ceilDiv (X p : Nat) (hp : 1 ≤ p) : X ≤ p * ((X + p - 1) / p) := by
  cases X with
  | zero => exact Nat.zero_le _
  | succ x =>
      have h1 : x + 1 + p - 1 = x + p := by omega
      rw [h1, Nat.add_div_right x hp, Nat.mul_add, Nat.mul_one]
      have h2 := Nat.div_add_mod x p
      have h3 : x % p < p := Nat.mod_lt x hp
      omega

/-- Two lists with equal lengths and equal `getD` lookups at every
in-range position are equal. -/
theorem list_ext_getD (l1 l2 : List α) (d : α) (hlen : l1.length = l2.length)
    (h : ∀ p, p < l1.length → l1.getD p d = l2.getD p d) : l1 = l2 := by
  apply List.ext_getElem hlen
  intro i h1 h2
  have hi := h i h1
  rwa [List.getD_eq_getElem _ _ h1, List.getD_eq_getElem _ _ h2] at hi

/-- Folding `s + g k` over elements on which `g` vanishes returns the
accumulator unchanged. -/
theorem foldl_add_zero_fun {β : Type} [AddZeroClass α]
    (l : List β) (g : β → α) (hg : ∀ x ∈ l, g x = 0) (c : α) :
    l.foldl (fun s k => s + g k) c = c := by
  induction l generalizing c with
  | nil => rfl
  | cons a l ih =>
      rw [List.foldl_cons, hg a (by simp), add_zero]
      exact ih (fun x hx => hg x (by simp [hx])) c

/-- Folding `s + (if k = j then v else 0)` over a duplicate-free list
containing `j` adds exactly `v`. -/
theorem foldl_add_delta {β : Type} [AddZeroClass α] [DecidableEq β]
    (l : List β) (hnd : l.Nodup) (j : β) (hj : j ∈ l) (v c : α) :
    l.foldl (fun s k => s + if k = j then v else 0) c = c + v := by
  induction l generalizing c with
  | nil => simp at hj
  | cons a l ih =>
      rw [List.foldl_cons]
      by_cases h : a = j
      · subst h
        rw [if_pos rfl]
        have hnotin : ∀ x ∈ l, x ≠ a := by
          intro x hx he
          subst he
          exact (List.nodup_cons.mp hnd).1 hx
        exact foldl_add_zero_fun l _ (fun x hx => if_neg (hnotin x hx)) (c + v)
      · rw [if_neg h, add_zero]
        have hj2 : j ∈ l := by
          rcases List.mem_cons.mp hj with h1 | h1
          · exact absurd h1.symm h
          · exact h1
        exact ih (List.nodup_cons.mp hnd).2 hj2 c

/-- Folding over `finRange n` agrees with folding over `range n` when the
step functions agree through `Fin.val`. -/
theorem foldl_finRange_eq_range {β : Type} :
    ∀ (n : Nat) (f : β → Fin n → β) (g : β → Nat → β),
      (∀ s (k : Fin n), f s k = g s k.val) →
      ∀ s, (List.finRange n).foldl f s = (List.range n).foldl g s := by
  intro n
  induction n with
  | zero =>
      intro f g h s
      simp
  | succ n ih =>
      intro f g h s
      rw [List.finRange_succ_eq_map, List.range_succ_eq_map]
      rw [List.foldl_cons, List.foldl_cons, List.foldl_map, List.foldl_map]
      rw [h s 0]
      simp only [Fin.val_zero]
      exact ih (fun s k => f s k.succ) (fun s k => g s (k + 1))
        (fun s k => by
          show f s k.succ = g s (k.val + 1)
          rw [h s k.succ, Fin.val_succ]) (g s 0)

/-- A `getD` lookup into an all-zero buffer returns zero. -/
theorem getD_replicate_zero [Zero α] (n p : Nat) :
    (List.replicate n (0 : α)).getD p 0 = 0 := by
  rcases Nat.lt_or_ge p n with h | h
  · rw [List.getD_eq_getElem _ _ (by simpa using h), List.getElem_replicate]
  · exact List.getD_eq_default _ _ (by simpa using h)

/-- A `getD` lookup into `(range n).map g` at `p < n` returns `g p`. -/
theorem getD_range_map (n p : Nat) (g : Nat → α) (d : α) (hp : p < n) :
    ((List.range n).map g).getD p d = g p := by
  rw [List.getD_eq_getElem _ _ (by simpa using hp)]
  simp

/-- A `getD` lookup into the sub-slice `[s, s + c)` of a buffer reads the
underlying position `s + j`. -/
theorem getD_take_drop (l : List α) (s c j : Nat) (d : α) (hj : j < c)
    (hb : s + c ≤ l.length) :
    ((l.drop s).take c).getD j d = l.getD (s + j) d := by
  have h1 : j < ((l.drop s).take c).length := by
    rw [List.length_take, List.length_drop]
    omega
  rw [List.getD_eq_getElem _ _ h1, List.getD_eq_getElem _ _ (by omega)]
  rw [List.getElem_take, List.getElem_drop]

/-- Flattening rows of uniform length `Y` yields a buffer of length
`rows.length * Y`. -/
theorem flatten_length_uniform (rows : List (List α)) (Y : Nat)
    (h : ∀ r ∈ rows, r.length = Y) :
    rows.flatten.length = rows.length * Y := by
  induction rows with
  | nil => simp
  | cons r rs ih =>
      rw [List.flatten_cons, List.length_append, h r (by simp),
        ih (fun x hx => h x (by simp [hx])), List.length_cons, Nat.succ_mul]
      omega

/-- A `getD` lookup into an append, within the first part. -/
theorem getD_append_left (l1 l2 : List α) (p : Nat) (d : α) (hp : p < l1.length) :
    (l1 ++ l2).getD p d = l1.getD p d := by
  rw [List.getD_eq_getElem _ _ (by simp; omega), List.getElem_append_left hp,
    List.getD_eq_getElem _ _ hp]

/-- A `getD` lookup into an append, past the first part. -/
theorem getD_append_right (l1 l2 : List α) (n : Nat) (d : α) :
    (l1 ++ l2).getD (l1.length + n) d = l2.getD n d := by
  induction l1 with
  | nil => simp
  | cons a l1 ih =>
      simp only [List.cons_append, List.length_cons]
      rw [show l1.length + 1 + n = (l1.length + n) + 1 by omega]
      rw [List.getD_cons_succ]
      exact ih

/-- Row-major lookup into the flattening of uniform-length rows reads
row `i`, column `j`. -/
theorem flatten_getD (rows : List (List α)) (Y : Nat)
    (hY : ∀ r ∈ rows, r.length = Y) (i j : Nat) (d : α)
    (hi : i < rows.length) (hj : j < Y) :
    rows.flatten.getD (i * Y + j) d = (rows.getD i []).getD j d := by
  induction rows generalizing i with
  | nil => simp at hi
  | cons r rs ih =>
      have hr : r.length = Y := hY r (by simp)
      cases i with
      | zero =>
          simp only [Nat.zero_mul, Nat.zero_add, List.getD_cons_zero]
          rw [List.flatten_cons]
          exact getD_append_left _ _ _ _ (by omega)
      | succ i =>
          simp only [List.getD_cons_succ]
          rw [List.flatten_cons]
          have h2 : (i + 1) * Y + j = r.length + (i * Y + j) := by
            rw [hr, Nat.succ_mul]
            omega
          rw [h2, getD_append_right]
          exact ih (fun x hx => hY x (by simp [hx])) i (by simpa using hi)

/-- The flat sequential dot product produces a buffer of length `X * Z`. -/
theorem dyn_dotProduct_length {X Y Z : Nat} [Zero α] [Add α] [Mul α]
    (m : DynMatrics α X Y) (m1 : DynMatrics α Y Z) :
    (m.dotProduct m1).data.length = X * Z := by
  have h := rowsFold_length (α := α) X Z (fun i => i * Z)
    (fun i j => (List.range Y).foldl
      (fun sum k => sum + m.data.getD (i * Y + k) 0 * m1.data.getD (k * Z + j) 0) 0)
    ((DynMatrics.default : DynMatrics α X Z)).data
  exact h.trans (by simp [DynMatrics.default])

/-- Element `(i, j)` of the flat sequential dot product is the ascending
`k`-fold of `self[i * Y + k] * other[k * Z + j]` seeded at zero. -/
theorem dyn_dotProduct_getD {X Y Z : Nat} [Zero α] [Add α] [Mul α]
    (m : DynMatrics α X Y) (m1 : DynMatrics α Y Z) (i j : Nat) (hi : i < X) (hj : j < Z) :
    (m.dotProduct m1).data.getD (i * Z + j) 0 =
      (List.range Y).foldl
        (fun sum k => sum + m.data.getD (i * Y + k) 0 * m1.data.getD (k * Z + j) 0) 0 := by
  have hb : i * Z + j < X * Z := by
    have h1 : (i + 1) * Z = i * Z + Z := Nat.succ_mul i Z
    have h2 : (i + 1) * Z ≤ X * Z := Nat.mul_le_mul_right Z hi
    omega
  exact rowsFold_getD X Z (fun i => i * Z) 0 (fun i => (Nat.zero_add _).symm)
    (fun i j => (List.range Y).foldl
      (fun sum k => sum + m.data.getD (i * Y + k) 0 * m1.data.getD (k * Z + j) 0) 0)
    ((DynMatrics.default : DynMatrics α X Z)).data
    i j (i * Z + j) 0 hi hj rfl (by simp [DynMatrics.default]; exact hb)

/-- The chunk task, with its write offsets reassociated to the row-base
form `(start * Z + i * Z) + j`. -/
theorem dynChunkTask_eq [Zero α] [Add α] [Mul α] (a b : List α) (Y Z start e : Nat)
    (acc : List α) :
    dynChunkTask a b Y Z start e acc =
      (List.range (e - start)).foldl (fun acc2 i =>
        (List.range Z).foldl (fun acc3 j =>
          acc3.set (start * Z + i * Z + j)
            ((List.range Y).foldl
              (fun sum k => sum + a.getD (start * Y + (i * Y + k)) 0 * b.getD (k * Z + j) 0)
              0))
          acc2)
        acc := by
  unfold dynChunkTask
  simp only [Nat.add_assoc]

/-- A chunk task preserves the result-buffer length. -/
theorem dynChunkTask_length [Zero α] [Add α] [Mul α] (a b : List α) (Y Z start e : Nat)
    (acc : List α) :
    (dynChunkTask a b Y Z start e acc).length = acc.length := by
  rw [dynChunkTask_eq]
  exact rowsFold_length (e - start) Z (fun i => start * Z + i * Z) _ acc

/-- A chunk task writes nothing below its slice base `start * Z`. -/
theorem dynChunkTask_getD_low [Zero α] [Add α] [Mul α] (a b : List α) (Y Z start e : Nat)
    (acc : List α) (p : Nat) (hp : p < start * Z) :
    (dynChunkTask a b Y Z start e acc).getD p 0 = acc.getD p 0 := by
  rw [dynChunkTask_eq]
  exact rowsFold_getD_outside (e - start) Z (fun i => start * Z + i * Z) (start * Z)
    (fun i => rfl) _ acc p 0 (Or.inl hp)

/-- A chunk task stores at global cell `(g, j)`, for `start ≤ g < e`, the
same ascending `k`-fold the sequential algorithm computes for that cell:
the local read offset `start * Y + (i * Y + k)` at local row
`i = g - start` is the global offset `g * Y + k`. -/
theorem dynChunkTask_getD_mem [Zero α] [Add α] [Mul α] (a b : List α) (Y Z start e : Nat)
    (acc : List α) (g j : Nat) (hg1 : start ≤ g) (hg2 : g < e) (hj : j < Z)
    (hb : g * Z + j < acc.length) :
    (dynChunkTask a b Y Z start e acc).getD (g * Z + j) 0 =
      (List.range Y).foldl
        (fun sum k => sum + a.getD (g * Y + k) 0 * b.getD (k * Z + j) 0) 0 := by
  rw [dynChunkTask_eq]
  have hi : g - start < e - start := by omega
  have hpos : g * Z + j = start * Z + (g - start) * Z + j := by
    have h1 : start * Z + (g - start) * Z = (start + (g - start)) * Z := (Nat.add_mul _ _ _).symm
    rw [h1, Nat.add_sub_cancel' hg1]
  have h := rowsFold_getD (e - start) Z (fun i => start * Z + i * Z) (start * Z)
    (fun i => rfl)
    (fun i j => (List.range Y).foldl
      (fun sum k => sum + a.getD (start * Y + (i * Y + k)) 0 * b.getD (k * Z + j) 0) 0)
    acc (g - start) j (g * Z + j) 0 hi hj hpos hb
  rw [h]
  apply foldl_congr_mem
  intro s k _
  have h3 : start * Y + ((g - start) * Y + k) = g * Y + k := by
    have h4 : start * Y + (g - start) * Y = (start + (g - start)) * Y := (Nat.add_mul _ _ _).symm
    rw [Nat.add_sub_cancel' hg1] at h4
    omega
  rw [h3]

/-- Invariant of the chunking loop: given enough remaining iterations to
cover the rows from `start` on (`X ≤ start + fuel * cs`, with `cs ≥ 1`),
the loop preserves the buffer length, leaves positions below `start * Z`
untouched, and stores at every remaining cell `(g, j)` the sequential
value for that cell. -/
theorem dynParRun_spec [Zero α] [Add α] [Mul α] (a b : List α) (X Y Z cs : Nat)
    (hcs : 1 ≤ cs) :
    ∀ (fuel start : Nat) (l : List α), l.length = X * Z → X ≤ start + fuel * cs →
      ((dynParRun a b X Y Z cs fuel start l).length = l.length ∧
       (∀ p, p < start * Z →
         (dynParRun a b X Y Z cs fuel start l).getD p 0 = l.getD p 0) ∧
       (∀ g j, start ≤ g → g < X → j < Z →
         (dynParRun a b X Y Z cs fuel start l).getD (g * Z + j) 0 =
           (List.range Y).foldl
             (fun sum k => sum + a.getD (g * Y + k) 0 * b.getD (k * Z + j) 0) 0)) := by
  intro fuel
  induction fuel with
  | zero =>
      intro start l hlen hfuel
      exact ⟨rfl, fun p hp => rfl, fun g j hg1 hg2 hj => by omega⟩
  | succ fuel ih =>
      intro start l hlen hfuel
      rw [dynParRun]
      by_cases hxs : X ≤ start
      · rw [if_pos hxs]
        exact ⟨rfl, fun p hp => rfl, fun g j hg1 hg2 hj => by omega⟩
      · rw [if_neg hxs]
        have he1 : start < min (start + cs) X := by omega
        have he2 : min (start + cs) X ≤ X := Nat.min_le_right _ _
        have hlen2 : (dynChunkTask a b Y Z start (min (start + cs) X) l).length = X * Z := by
          rw [dynChunkTask_length]
          exact hlen
        have hfuel2 : X ≤ min (start + cs) X + fuel * cs := by
          have hsm : (fuel + 1) * cs = fuel * cs + cs := Nat.succ_mul _ _
          omega
        obtain ⟨ih1, ih2, ih3⟩ :=
          ih (min (start + cs) X) (dynChunkTask a b Y Z start (min (start + cs) X) l)
            hlen2 hfuel2
        refine ⟨?_, ?_, ?_⟩
        · rw [ih1, dynChunkTask_length]
        · intro p hp
          have hmul : start * Z ≤ min (start + cs) X * Z :=
            Nat.mul_le_mul_right Z (Nat.le_of_lt he1)
          rw [ih2 p (by omega)]
          exact dynChunkTask_getD_low a b Y Z start _ l p hp
        · intro g j hg1 hg2 hj
          rcases Nat.lt_or_ge g (min (start + cs) X) with hge | hge
          · have hsm : (g + 1) * Z = g * Z + Z := Nat.succ_mul g Z
            have h1 : (g + 1) * Z ≤ min (start + cs) X * Z := Nat.mul_le_mul_right Z hge
            rw [ih2 _ (by omega)]
            have h2 : min (start + cs) X * Z ≤ X * Z := Nat.mul_le_mul_right Z he2
            exact dynChunkTask_getD_mem a b Y Z start _ l g j hg1 hge hj (by omega)
          · exact ih3 g j hge hg2 hj

/-- The flat-layout parallel dot product agrees with the sequential one
for every worker count at least 1 (C1's equivalence for the flat
engine, as a reusable helper). -/
theorem dyn_par_eq_seq {X Y Z : Nat} [Zero α] [Add α] [Mul α]
    (m : DynMatrics α X Y) (m1 : DynMatrics α Y Z) (w : Nat) (hw : 1 ≤ w) :
    m.dotProductInParallel m1 w = some (m.dotProduct m1) := by
  have hw0 : ¬ w = 0 := by omega
  unfold DynMatrics.dotProductInParallel
  rw [if_neg hw0]
  show some (DynMatrics.mk
      (dynParRun m.data m1.data X Y Z ((X + w - 1) / w) w 0 (List.replicate (X * Z) 0)))
    = some (m.dotProduct m1)
  congr 1
  rcases Nat.eq_zero_or_pos X with hX | hX
  · subst hX
    cases w with
    | zero => omega
    | succ v =>
        rw [dynParRun, if_pos (Nat.le_refl 0)]
        rfl
  · have hcs : 1 ≤ (X + w - 1) / w := ceilDiv_pos X w hw hX
    obtain ⟨h1, _, h3⟩ := dynParRun_spec m.data m1.data X Y Z _ hcs w 0
      (List.replicate (X * Z) 0) (by simp)
      (by have := le_mul_ceilDiv X w hw; omega)
    have hseq := dyn_dotProduct_length m m1
    rw [show m.dotProduct m1 = DynMatrics.mk (m.dotProduct m1).data from rfl]
    congr 1
    apply list_ext_getD _ _ 0
    · rw [h1, List.length_replicate, hseq]
    · intro p hp
      have hp2 : p < X * Z := by
        rw [h1, List.length_replicate] at hp
        exact hp
      have hZ : 0 < Z := by
        rcases Nat.eq_zero_or_pos Z with h | h
        · subst h
          omega
        · exact h
      have hij : p = p / Z * Z + p % Z := (Nat.div_add_mod' p Z).symm
      have hi : p / Z < X := by
        rw [Nat.div_lt_iff_lt_mul hZ]
        omega
      have hj : p % Z < Z := Nat.mod_lt _ hZ
      rw [hij, h3 _ _ (Nat.zero_le _) hi hj, dyn_dotProduct_getD m m1 _ _ hi hj]

/-- The fixed-layout parallel dot product agrees with the sequential one
for every worker count at least 1, provided the matrix has at least one
row (C1's equivalence for the fixed engine, as a reusable helper): the
worker's reconstructed global row `chunk * chunk_size + local` is the
result row it writes. -/
theorem fixed_par_eq_seq {X Y Z : Nat} [Zero α] [Add α] [Mul α]
    (m : Matrix α X Y) (m1 : Matrix α Y Z) (w : Nat) (hw : 1 ≤ w) (hX : 1 ≤ X) :
    m.dotProductInParallel m1 w = some (m.dotProduct m1) := by
  have hw0 : ¬ w = 0 := by omega
  have hcs : ¬ (X + w - 1) / w = 0 := by
    have := ceilDiv_pos X w hw hX
    omega
  unfold Matrix.dotProductInParallel
  rw [if_neg hw0]
  show (if (X + w - 1) / w = 0 then none else some _) = some (m.dotProduct m1)
  rw [if_neg hcs]
  congr 1
  unfold Matrix.dotProduct
  congr 1
  funext r z
  apply foldl_congr_mem
  intro s y _
  exact congrArg (s + · * m1.data y z)
    (congrFun (congrArg m.data (Fin.ext (Nat.div_add_mod' r.val ((X + w - 1) / w)))) y)

/-- The fixed-layout parallel dot product panics when the left operand
has zero rows: the chunk size is zero and `chunks_mut` rejects it. -/
theorem fixed_par_zero_rows {Y Z : Nat} [Zero α] [Add α] [Mul α]
    (m : Matrix α 0 Y) (m1 : Matrix α Y Z) (w : Nat) (hw : 1 ≤ w) :
    m.dotProductInParallel m1 w = none := by
  have hw0 : ¬ w = 0 := by omega
  unfold Matrix.dotProductInParallel
  rw [if_neg hw0]
  show (if (0 + w - 1) / w = 0 then none else some _) = none
  rw [if_pos (ceilDiv_eq_zero w hw)]

/-- The flat-layout parallel dot product with a zero-row left operand
returns the empty result without writing anything: the loop breaks on
its first iteration. -/
theorem dyn_par_zero_rows {Y Z : Nat} [Zero α] [Add α] [Mul α]
    (m : DynMatrics α 0 Y) (m1 : DynMatrics α Y Z) (w : Nat) (hw : 1 ≤ w) :
    m.dotProductInParallel m1 w = some ⟨[]⟩ := by
  cases w with
  | zero => omega
  | succ v =>
      unfold DynMatrics.dotProductInParallel
      rw [if_neg (by omega)]
      show some (DynMatrics.mk
          (dynParRun m.data m1.data 0 Y Z ((0 + (v + 1) - 1) / (v + 1)) (v + 1) 0
            (List.replicate (0 * Z) 0)))
        = some (DynMatrics.mk [])
      rw [dynParRun, if_pos (Nat.le_refl 0)]
      simp

/-- The chunking loop of the flat engine spawns no worker when the row
count is zero. -/
theorem dynSpawnCount_zero_rows (cs fuel : Nat) : dynSpawnCount 0 cs fuel 0 = 0 := by
  cases fuel with
  | zero => rfl
  | succ f =>
      rw [dynSpawnCount, if_pos (Nat.le_refl 0)]

/-- Multiplying a fixed-layout matrix by the identity on the right
returns it unchanged. -/
theorem fixed_dot_identity {X n : Nat} [NonAssocSemiring α] (m : Matrix α X n) :
    m.dotProduct Matrix.identity = m := by
  cases m with
  | mk f =>
      show Matrix.mk _ = Matrix.mk f
      congr 1
      funext i j
      show (List.finRange n).foldl
        (fun sum k => sum + f i k * (if k = j then (1 : α) else 0)) 0 = f i j
      calc (List.finRange n).foldl
            (fun sum k => sum + f i k * (if k = j then (1 : α) else 0)) 0
          = (List.finRange n).foldl (fun s k => s + if k = j then f i j else 0) 0 := by
            apply foldl_congr_mem
            intro s k _
            by_cases h : k = j
            · subst h
              rw [if_pos rfl, if_pos rfl, mul_one]
            · rw [if_neg h, if_neg h, mul_zero]
        _ = 0 + f i j := foldl_add_delta _ (List.nodup_finRange n) j (List.mem_finRange j) _ 0
        _ = f i j := zero_add _

/-- Entry `(k, j)` of the flat-layout identity matrix. -/
theorem dyn_identity_getD {n : Nat} [NonAssocSemiring α] (k j : Nat) (hk : k < n)
    (hj : j < n) :
    (DynMatrics.identity : DynMatrics α n n).data.getD (k * n + j) 0
      = if k = j then 1 else 0 := by
  unfold DynMatrics.identity
  have hb : k * n + j < n * n := by
    have h1 : (k + 1) * n = k * n + n := Nat.succ_mul k n
    have h2 : (k + 1) * n ≤ n * n := Nat.mul_le_mul_right n hk
    omega
  rw [getD_range_map _ _ _ _ hb]
  have hn : 0 < n := by omega
  have hd : (k * n + j) / n = k := by
    rw [Nat.mul_comm k n, Nat.mul_add_div hn, Nat.div_eq_of_lt hj, Nat.add_zero]
  have hm2 : (k * n + j) % n = j := by
    rw [Nat.mul_comm k n, Nat.mul_add_mod, Nat.mod_eq_of_lt hj]
  rw [hd, hm2]

/-- Multiplying a flat-layout matrix by the identity on the right returns
it unchanged. -/
theorem dyn_dot_identity {X n : Nat} [NonAssocSemiring α] (m : DynMatrics α X n)
    (hm : m.data.length = X * n) :
    m.dotProduct (DynMatrics.identity : DynMatrics α n n) = m := by
  have hdata : (m.dotProduct (DynMatrics.identity : DynMatrics α n n)).data = m.data := by
    apply list_ext_getD _ _ 0
    · rw [dyn_dotProduct_length, hm]
    · intro p hp
      have hp2 : p < X * n := by rwa [dyn_dotProduct_length] at hp
      have hn : 0 < n := by
        rcases Nat.eq_zero_or_pos n with h | h
        · subst h
          omega
        · exact h
      have hij : p = p / n * n + p % n := (Nat.div_add_mod' p n).symm
      have hi : p / n < X := by
        rw [Nat.div_lt_iff_lt_mul hn]
        omega
      have hj : p % n < n := Nat.mod_lt _ hn
      rw [hij, dyn_dotProduct_getD m DynMatrics.identity _ _ hi hj]
      calc (List.range n).foldl
            (fun sum k => sum + m.data.getD (p / n * n + k) 0 *
              (DynMatrics.identity : DynMatrics α n n).data.getD (k * n + p % n) 0) 0
          = (List.range n).foldl
              (fun s k => s + if k = p % n then m.data.getD (p / n * n + p % n) 0 else 0) 0 := by
            apply foldl_congr_mem
            intro s k hkmem
            have hk : k < n := List.mem_range.mp hkmem
            rw [dyn_identity_getD k (p % n) hk hj]
            by_cases h : k = p % n
            · subst h
              rw [if_pos rfl, if_pos rfl, mul_one]
            · rw [if_neg h, if_neg h, mul_zero]
        _ = 0 + m.data.getD (p / n * n + p % n) 0 :=
            foldl_add_delta _ (List.nodup_range n) (p % n) (List.mem_range.mpr hj) _ 0
        _ = m.data.getD (p / n * n + p % n) 0 := zero_add _
  exact congrArg DynMatrics.mk hdata

/-- Multiplying a fixed-layout matrix by a zero matrix on the right
yields the zero matrix. -/
theorem fixed_dot_zero_right {X Y Z : Nat} [NonAssocSemiring α] (m : Matrix α X Y) :
    m.dotProduct (Matrix.default : Matrix α Y Z) = (Matrix.default : Matrix α X Z) := by
  unfold Matrix.dotProduct Matrix.default
  congr 1
  funext i j
  exact foldl_add_zero_fun (List.finRange Y) (fun k => m.data i k * 0)
    (fun k _ => mul_zero _) 0

/-- Multiplying a fixed-layout matrix by a zero matrix on the left yields
the zero matrix. -/
theorem fixed_dot_zero_left {X Y Z : Nat} [NonAssocSemiring α] (m1 : Matrix α Y Z) :
    (Matrix.default : Matrix α X Y).dotProduct m1 = (Matrix.default : Matrix α X Z) := by
  unfold Matrix.dotProduct Matrix.default
  congr 1
  funext i j
  exact foldl_add_zero_fun (List.finRange Y) (fun k => 0 * m1.data k j)
    (fun k _ => zero_mul _) 0

/-- Multiplying a flat-layout matrix by a zero matrix on the right yields
the zero matrix. -/
theorem dyn_dot_zero_right {X Y Z : Nat} [NonAssocSemiring α] (m : DynMatrics α X Y) :
    m.dotProduct (DynMatrics.default : DynMatrics α Y Z)
      = (DynMatrics.default : DynMatrics α X Z) := by
  have hdata : (m.dotProduct (DynMatrics.default : DynMatrics α Y Z)).data
      = List.replicate (X * Z) (0 : α) := by
    apply list_ext_getD _ _ 0
    · rw [dyn_dotProduct_length, List.length_replicate]
    · intro p hp
      have hp2 : p < X * Z := by rwa [dyn_dotProduct_length] at hp
      have hZ : 0 < Z := by
        rcases Nat.eq_zero_or_pos Z with h | h
        · subst h
          omega
        · exact h
      have hij : p = p / Z * Z + p % Z := (Nat.div_add_mod' p Z).symm
      have hi : p / Z < X := by
        rw [Nat.div_lt_iff_lt_mul hZ]
        omega
      have hj : p % Z < Z := Nat.mod_lt _ hZ
      rw [hij, dyn_dotProduct_getD m DynMatrics.default _ _ hi hj, getD_replicate_zero]
      have hzero : ∀ k : Nat,
          (DynMatrics.default : DynMatrics α Y Z).data.getD (k * Z + p % Z) 0 = 0 :=
        fun k => getD_replicate_zero _ _
      exact foldl_add_zero_fun (List.range Y)
        (fun k => m.data.getD (p / Z * Y + k) 0 *
          (DynMatrics.default : DynMatrics α Y Z).data.getD (k * Z + p % Z) 0)
        (fun k _ => by
          show m.data.getD (p / Z * Y + k) 0 *
            (DynMatrics.default : DynMatrics α Y Z).data.getD (k * Z + p % Z) 0 = 0
          rw [hzero k, mul_zero]) 0
  exact congrArg DynMatrics.mk hdata

/-- Multiplying a flat-layout matrix by a zero matrix on the left yields
the zero matrix. -/
theorem dyn_dot_zero_left {X Y Z : Nat} [NonAssocSemiring α] (m1 : DynMatrics α Y Z) :
    (DynMatrics.default : DynMatrics α X Y).dotProduct m1
      = (DynMatrics.default : DynMatrics α X Z) := by
  have hdata : ((DynMatrics.default : DynMatrics α X Y).dotProduct m1).data
      = List.replicate (X * Z) (0 : α) := by
    apply list_ext_getD _ _ 0
    · rw [dyn_dotProduct_length, List.length_replicate]
    · intro p hp
      have hp2 : p < X * Z := by rwa [dyn_dotProduct_length] at hp
      have hZ : 0 < Z := by
        rcases Nat.eq_zero_or_pos Z with h | h
        · subst h
          omega
        · exact h
      have hij : p = p / Z * Z + p % Z := (Nat.div_add_mod' p Z).symm
      have hi : p / Z < X := by
        rw [Nat.div_lt_iff_lt_mul hZ]
        omega
      have hj : p % Z < Z := Nat.mod_lt _ hZ
      rw [hij, dyn_dotProduct_getD DynMatrics.default m1 _ _ hi hj, getD_replicate_zero]
      have hzero : ∀ k : Nat,
          (DynMatrics.default : DynMatrics α X Y).data.getD (p / Z * Y + k) 0 = 0 :=
        fun k => getD_replicate_zero _ _
      exact foldl_add_zero_fun (List.range Y)
        (fun k => (DynMatrics.default : DynMatrics α X Y).data.getD (p / Z * Y + k) 0 *
          m1.data.getD (k * Z + p % Z) 0)
        (fun k _ => by
          show (DynMatrics.default : DynMatrics α X Y).data.getD (p / Z * Y + k) 0 *
            m1.data.getD (k * Z + p % Z) 0 = 0
          rw [hzero k, zero_mul]) 0
  exact congrArg DynMatrics.mk hdata

/-- The flat-layout constructor succeeds exactly on sources of length
`R * C`. -/
theorem tryFrom_isSome_iff {R C : Nat} (l : List α) :
    (DynMatrics.tryFrom l : Option (DynMatrics α R C)).isSome ↔ l.length = R * C := by
  unfold DynMatrics.tryFrom
  by_cases h : l.length = R * C
  · rw [if_pos h]
    simpa using h
  · rw [if_neg h]
    simpa using h

/-- On success, the flat-layout constructor stores the source verbatim,
preserving row-major order. -/
theorem tryFrom_eq_some {R C : Nat} (l : List α) (m : DynMatrics α R C)
    (h : DynMatrics.tryFrom l = some m) : m.data = l := by
  unfold DynMatrics.tryFrom at h
  by_cases hl : l.length = R * C
  · rw [if_pos hl] at h
    cases h
    rfl
  · rw [if_neg hl] at h
    exact Option.noConfusion h

/-- On a length mismatch, the flat-layout constructor fails and builds
nothing. -/
theorem tryFrom_eq_none {R C : Nat} (l : List α) (h : ¬ l.length = R * C) :
    (DynMatrics.tryFrom l : Option (DynMatrics α R C)) = none := by
  unfold DynMatrics.tryFrom
  rw [if_neg h]

/-- The flattening of a well-shaped row list is accepted by the
flat-layout constructor. -/
theorem tryFrom_flatten_some {X Y : Nat} (ra : List (List α)) (ha1 : ra.length = X)
    (ha2 : ∀ r ∈ ra, r.length = Y) :
    (DynMatrics.tryFrom ra.flatten : Option (DynMatrics α X Y)) = some ⟨ra.flatten⟩ := by
  unfold DynMatrics.tryFrom
  rw [if_pos (by rw [flatten_length_uniform ra Y ha2, ha1])]

/-- In-range fixed-layout row indexing returns the stored row. -/
theorem fixed_row_lt {R C : Nat} (m : Matrix α R C) (i : Nat) (h : i < R) :
    m.row i = some (m.data ⟨i, h⟩) := by
  unfold Matrix.row
  rw [dif_pos h]

/-- Out-of-range fixed-layout row indexing panics. -/
theorem fixed_row_ge {R C : Nat} (m : Matrix α R C) (i : Nat) (h : R ≤ i) :
    m.row i = none := by
  unfold Matrix.row
  rw [dif_neg (by omega)]

/-- In-range flat-layout row indexing returns the length-`C` sub-slice at
row-major positions `[i * C, i * C + C)`. -/
theorem dyn_row_lt {R C : Nat} [Zero α] (m : DynMatrics α R C)
    (hm : m.data.length = R * C) (i : Nat) (h : i < R) :
    ∃ r, m.row i = some r ∧ r.length = C ∧
      ∀ j, j < C → r.getD j 0 = m.data.getD (i * C + j) 0 := by
  have hend : i * C + C ≤ m.data.length := by
    rw [hm]
    have h1 : (i + 1) * C = i * C + C := Nat.succ_mul i C
    have h2 : (i + 1) * C ≤ R * C := Nat.mul_le_mul_right C h
    omega
  refine ⟨(m.data.drop (i * C)).take C, ?_, ?_, ?_⟩
  · unfold DynMatrics.row
    rw [if_pos hend]
  · rw [List.length_take, List.length_drop]
    omega
  · intro j hj
    exact getD_take_drop m.data (i * C) C j 0 hj hend

/-- Out-of-range flat-layout row indexing panics whenever the matrix has
at least one column. -/
theorem dyn_row_ge {R C : Nat} (m : DynMatrics α R C)
    (hm : m.data.length = R * C) (i : Nat) (h : R ≤ i) (hC : 1 ≤ C) :
    m.row i = none := by
  unfold DynMatrics.row
  have h1 : R * C ≤ i * C := Nat.mul_le_mul_right C h
  rw [if_neg (by omega)]

/-- Flat-layout row indexing on a zero-column matrix never panics: the
computed range `[i * 0, i * 0 + 0)` is always valid and yields the empty
row, for any index. -/
theorem dyn_row_zero_cols {R : Nat} (m : DynMatrics α R 0) (i : Nat) :
    m.row i = some [] := by
  unfold DynMatrics.row
  rw [if_pos (by simp)]
  simp

/-- The two engines compute the same products from the same row-major
source data: the flat entry at `(i, j)` equals the fixed entry there. -/
theorem engines_agree_entries {X Y Z : Nat} [Zero α] [Add α] [Mul α]
    (ra rb : List (List α)) (A : DynMatrics α X Y) (B : DynMatrics α Y Z)
    (ha1 : ra.length = X) (ha2 : ∀ r ∈ ra, r.length = Y)
    (hb1 : rb.length = Y) (hb2 : ∀ r ∈ rb, r.length = Z)
    (hA : DynMatrics.tryFrom ra.flatten = some A)
    (hB : DynMatrics.tryFrom rb.flatten = some B)
    (i j : Nat) (hi : i < X) (hj : j < Z) :
    (A.dotProduct B).data.getD (i * Z + j) 0 =
      ((Matrix.fromRows ra : Matrix α X Y).dotProduct
        (Matrix.fromRows rb : Matrix α Y Z)).data ⟨i, hi⟩ ⟨j, hj⟩ := by
  have hAd : A.data = ra.flatten := tryFrom_eq_some _ _ hA
  have hBd : B.data = rb.flatten := tryFrom_eq_some _ _ hB
  rw [dyn_dotProduct_getD A B i j hi hj]
  show _ = (List.finRange Y).foldl
    (fun sum k => sum + (ra.getD i []).getD k.val 0 * (rb.getD k.val []).getD j 0) 0
  rw [foldl_finRange_eq_range Y
    (fun sum k => sum + (ra.getD i []).getD k.val 0 * (rb.getD k.val []).getD j 0)
    (fun sum k => sum + (ra.getD i []).getD k 0 * (rb.getD k []).getD j 0)
    (fun s k => rfl) 0]
  apply foldl_congr_mem
  intro s k hk
  have hkY : k < Y := List.mem_range.mp hk
  rw [hAd, hBd, flatten_getD ra Y ha2 i k 0 (by omega) hkY,
    flatten_getD rb Z hb2 k j 0 (by omega) hj]

/-- C1 counterexample: for the fixed engine with a zero-row left operand
and one worker, the parallel product panics (`chunks_mut` rejects the
zero chunk size) instead of returning the sequential result. -/
theorem claim_parallel_equivalence_cex :
    (Matrix.default : Matrix Int 0 1).dotProductInParallel
        (Matrix.default : Matrix Int 1 1) 1 ≠
      some ((Matrix.default : Matrix Int 0 1).dotProduct
        (Matrix.default : Matrix Int 1 1)) :=
  fun h => Option.noConfusion h

/-- C1 (amended): for every worker count w ≥ 1, the flat engine's
parallel dot product equals the sequential dot product at every shape,
and the fixed engine's does too whenever X ≥ 1; at X = 0 the fixed
engine's parallel call panics on a zero chunk size instead. -/
theorem claim_parallel_equivalence {α : Type} [Zero α] [Add α] [Mul α] (w : Nat)
    (hw : 1 ≤ w) :
    (∀ {X Y Z : Nat} (m : DynMatrics α X Y) (m1 : DynMatrics α Y Z),
      m.dotProductInParallel m1 w = some (m.dotProduct m1)) ∧
    (∀ {X Y Z : Nat} (m : Matrix α X Y) (m1 : Matrix α Y Z), 1 ≤ X →
      m.dotProductInParallel m1 w = some (m.dotProduct m1)) ∧
    (∀ {Y Z : Nat} (m : Matrix α 0 Y) (m1 : Matrix α Y Z),
      m.dotProductInParallel m1 w = none) :=
  ⟨fun m m1 => dyn_par_eq_seq m m1 w hw,
   fun m m1 hX => fixed_par_eq_seq m m1 w hw hX,
   fun m m1 => fixed_par_zero_rows m m1 w hw⟩

/-- Witness for C1: parallel equals sequential for the flat engine at a
concrete 2×2 integer input with 2 workers. -/
theorem claim_parallel_equivalence_witness :
    (DynMatrics.mk [1, 2, 3, 4] : DynMatrics Int 2 2).dotProductInParallel
        (DynMatrics.mk [2, 0, 1, 2] : DynMatrics Int 2 2) 2 =
      some ((DynMatrics.mk [1, 2, 3, 4] : DynMatrics Int 2 2).dotProduct
        (DynMatrics.mk [2, 0, 1, 2] : DynMatrics Int 2 2)) :=
  (claim_parallel_equivalence 2 (by decide)).1 _ _

/-- C2 counterexample: with worker count 0 the chunk-size computation
`(X + parallel - 1) / parallel` divides by zero and the call panics
(returns `none`) instead of completing. -/
theorem claim_zero_workers_cex :
    (DynMatrics.mk [5] : DynMatrics Int 1 1).dotProductInParallel
      (DynMatrics.mk [7] : DynMatrics Int 1 1) 0 = none := rfl

/-- C2 (amended): the chunk-size computation has no guard for worker
count 0: both engines divide by zero and panic there; for every worker
count ≥ 1 the division is well-defined and the call completes (for the
fixed engine, whenever X ≥ 1). -/
theorem claim_zero_workers {α : Type} [Zero α] [Add α] [Mul α] :
    (∀ {X Y Z : Nat} (m : DynMatrics α X Y) (m1 : DynMatrics α Y Z),
      m.dotProductInParallel m1 0 = none) ∧
    (∀ {X Y Z : Nat} (m : Matrix α X Y) (m1 : Matrix α Y Z),
      m.dotProductInParallel m1 0 = none) ∧
    (∀ {X Y Z : Nat} (m : DynMatrics α X Y) (m1 : DynMatrics α Y Z) (w : Nat), 1 ≤ w →
      (m.dotProductInParallel m1 w).isSome = true) ∧
    (∀ {X Y Z : Nat} (m : Matrix α X Y) (m1 : Matrix α Y Z) (w : Nat), 1 ≤ w → 1 ≤ X →
      (m.dotProductInParallel m1 w).isSome = true) :=
  ⟨fun m m1 => rfl, fun m m1 => rfl,
   fun m m1 w hw => by rw [dyn_par_eq_seq m m1 w hw]; rfl,
   fun m m1 w hw hX => by rw [fixed_par_eq_seq m m1 w hw hX]; rfl⟩

/-- Witness for C2: the flat engine's parallel call completes at a
concrete 1×1 input with 3 workers. -/
theorem claim_zero_workers_witness :
    ((DynMatrics.mk [2] : DynMatrics Int 1 1).dotProductInParallel
      (DynMatrics.mk [3] : DynMatrics Int 1 1) 3).isSome = true :=
  (claim_zero_workers).2.2.1 _ _ 3 (by decide)

/-- C3 counterexample: the fixed engine with a zero-row left operand and
one worker panics (`chunks_mut` rejects the zero chunk size) instead of
returning a zero-row result without failing. -/
theorem claim_zero_rows_cex :
    (Matrix.default : Matrix Int 0 2).dotProductInParallel
      (Matrix.default : Matrix Int 2 2) 1 = none := rfl

/-- C3 (amended): for every worker count w ≥ 1 and a zero-row left
operand, the flat engine returns the empty (zero-row) result, its
chunking loop spawns no worker, and it does not fail; the fixed engine,
however, panics on the zero chunk size. -/
theorem claim_zero_rows {α : Type} [Zero α] [Add α] [Mul α] (w : Nat) (hw : 1 ≤ w) :
    (∀ {Y Z : Nat} (m : DynMatrics α 0 Y) (m1 : DynMatrics α Y Z),
      m.dotProductInParallel m1 w = some (DynMatrics.mk [])) ∧
    (∀ cs : Nat, dynSpawnCount 0 cs w 0 = 0) ∧
    (∀ {Y Z : Nat} (m : Matrix α 0 Y) (m1 : Matrix α Y Z),
      m.dotProductInParallel m1 w = none) :=
  ⟨fun m m1 => dyn_par_zero_rows m m1 w hw,
   fun cs => dynSpawnCount_zero_rows cs w,
   fun m m1 => fixed_par_zero_rows m m1 w hw⟩

/-- Witness for C3: the flat engine at a concrete 0×3 by 3×2 input with
4 workers returns the empty result. -/
theorem claim_zero_rows_witness :
    (DynMatrics.mk [] : DynMatrics Int 0 3).dotProductInParallel
      (DynMatrics.mk [1, 2, 3, 4, 5, 6] : DynMatrics Int 3 2) 4 =
      some (DynMatrics.mk []) :=
  (claim_zero_rows 4 (by decide)).1 _ _

/-- C4: for every X×Y left operand and Y×Z right operand (both engines),
the sequential dot product's element (i, j) is the sum, accumulated with
k ascending and seeded at the element type's zero, of
`left[i][k] * right[k][j]`; in particular when Y = 0 every output
element is the zero value. -/
theorem claim_dot_product_entries {α : Type} [Zero α] [Add α] [Mul α] {X Y Z : Nat}
    (m : Matrix α X Y) (m1 : Matrix α Y Z) (md : DynMatrics α X Y)
    (md1 : DynMatrics α Y Z) (i j : Nat) (hi : i < X) (hj : j < Z) :
    ((m.dotProduct m1).data ⟨i, hi⟩ ⟨j, hj⟩ =
      (List.finRange Y).foldl
        (fun sum k => sum + m.data ⟨i, hi⟩ k * m1.data k ⟨j, hj⟩) 0) ∧
    ((md.dotProduct md1).data.getD (i * Z + j) 0 =
      (List.range Y).foldl
        (fun sum k => sum + md.data.getD (i * Y + k) 0 * md1.data.getD (k * Z + j) 0) 0) ∧
    (Y = 0 → (m.dotProduct m1).data ⟨i, hi⟩ ⟨j, hj⟩ = 0 ∧
      (md.dotProduct md1).data.getD (i * Z + j) 0 = 0) := by
  refine ⟨rfl, dyn_dotProduct_getD md md1 i j hi hj, ?_⟩
  intro hY
  subst hY
  constructor
  · show (List.finRange 0).foldl
      (fun sum k => sum + m.data ⟨i, hi⟩ k * m1.data k ⟨j, hj⟩) 0 = 0
    rw [List.finRange_zero]
    rfl
  · rw [dyn_dotProduct_getD md md1 i j hi hj, List.range_zero]
    rfl

/-- Witness for C4 at concrete 1×1 integer matrices. -/
theorem claim_dot_product_entries_witness :
    (((Matrix.fromRows [[3]] : Matrix Int 1 1).dotProduct
        (Matrix.fromRows [[4]] : Matrix Int 1 1)).data ⟨0, by decide⟩ ⟨0, by decide⟩ =
      (List.finRange 1).foldl
        (fun sum k => sum + (Matrix.fromRows [[3]] : Matrix Int 1 1).data ⟨0, by decide⟩ k *
          (Matrix.fromRows [[4]] : Matrix Int 1 1).data k ⟨0, by decide⟩) 0) ∧
    (((DynMatrics.mk [3] : DynMatrics Int 1 1).dotProduct
        (DynMatrics.mk [4] : DynMatrics Int 1 1)).data.getD (0 * 1 + 0) 0 =
      (List.range 1).foldl
        (fun sum k => sum +
          (DynMatrics.mk [3] : DynMatrics Int 1 1).data.getD (0 * 1 + k) 0 *
          (DynMatrics.mk [4] : DynMatrics Int 1 1).data.getD (k * 1 + 0) 0) 0) ∧
    (1 = 0 → ((Matrix.fromRows [[3]] : Matrix Int 1 1).dotProduct
        (Matrix.fromRows [[4]] : Matrix Int 1 1)).data ⟨0, by decide⟩ ⟨0, by decide⟩ = 0 ∧
      ((DynMatrics.mk [3] : DynMatrics Int 1 1).dotProduct
        (DynMatrics.mk [4] : DynMatrics Int 1 1)).data.getD (0 * 1 + 0) 0 = 0) :=
  claim_dot_product_entries (Matrix.fromRows [[3]]) (Matrix.fromRows [[4]])
    (DynMatrics.mk [3]) (DynMatrics.mk [4]) 0 0 (by decide) (by decide)

/-- C5: the flat-layout constructor succeeds exactly when the source
length is R * C; on success it stores the source verbatim (preserving
row-major order), and on failure it returns the shape-mismatch error
with no matrix constructed. -/
theorem claim_try_from {α : Type} {R C : Nat} (l : List α) :
    ((DynMatrics.tryFrom l : Option (DynMatrics α R C)).isSome ↔ l.length = R * C) ∧
    (∀ m : DynMatrics α R C, DynMatrics.tryFrom l = some m → m.data = l) ∧
    (¬ l.length = R * C → (DynMatrics.tryFrom l : Option (DynMatrics α R C)) = none) :=
  ⟨tryFrom_isSome_iff l, fun m h => tryFrom_eq_some l m h, fun h => tryFrom_eq_none l h⟩

/-- Witness for C5: constructing a 2×2 flat matrix from [1,2,3,4]
preserves the source buffer. -/
theorem claim_try_from_witness :
    (DynMatrics.mk [1, 2, 3, 4] : DynMatrics Int 2 2).data = [1, 2, 3, 4] :=
  (claim_try_from [1, 2, 3, 4]).2.1 (DynMatrics.mk [1, 2, 3, 4]) rfl

/-- C6: for both engines, default() is the R×C matrix every element of
which is the element type's zero value, with no error condition. -/
theorem claim_default_zero {α : Type} [Zero α] {R C : Nat} (i : Fin R) (j : Fin C)
    (p : Nat) (_hp : p < R * C) :
    (Matrix.default : Matrix α R C).data i j = 0 ∧
    (DynMatrics.default : DynMatrics α R C).data.length = R * C ∧
    (DynMatrics.default : DynMatrics α R C).data.getD p 0 = 0 :=
  ⟨rfl, List.length_replicate _ _, getD_replicate_zero _ _⟩

/-- Witness for C6 at a concrete 2×3 position. -/
theorem claim_default_zero_witness :
    (Matrix.default : Matrix Int 2 3).data ⟨1, by decide⟩ ⟨2, by decide⟩ = 0 ∧
    (DynMatrics.default : DynMatrics Int 2 3).data.length = 2 * 3 ∧
    (DynMatrics.default : DynMatrics Int 2 3).data.getD 5 0 = 0 :=
  claim_default_zero ⟨1, by decide⟩ ⟨2, by decide⟩ 5 (by decide)

/-- C7: from the same row-major source data, the fixed-layout matrix
(via From) and the flat-layout matrix (via try_from on the flattening)
produce products with identical element values at every position — the
two engines implement one contract. -/
theorem claim_engines_one_contract {α : Type} [Zero α] [Add α] [Mul α] {X Y Z : Nat}
    (ra rb : List (List α))
    (ha1 : ra.length = X) (ha2 : ∀ r ∈ ra, r.length = Y)
    (hb1 : rb.length = Y) (hb2 : ∀ r ∈ rb, r.length = Z) :
    ∃ A : DynMatrics α X Y, ∃ B : DynMatrics α Y Z,
      DynMatrics.tryFrom ra.flatten = some A ∧
      DynMatrics.tryFrom rb.flatten = some B ∧
      ∀ i j (hi : i < X) (hj : j < Z),
        (A.dotProduct B).data.getD (i * Z + j) 0 =
          ((Matrix.fromRows ra : Matrix α X Y).dotProduct
            (Matrix.fromRows rb : Matrix α Y Z)).data ⟨i, hi⟩ ⟨j, hj⟩ :=
  ⟨⟨ra.flatten⟩, ⟨rb.flatten⟩, tryFrom_flatten_some ra ha1 ha2,
    tryFrom_flatten_some rb hb1 hb2,
    fun i j hi hj => engines_agree_entries ra rb _ _ ha1 ha2 hb1 hb2
      (tryFrom_flatten_some ra ha1 ha2) (tryFrom_flatten_some rb hb1 hb2) i j hi hj⟩

/-- Witness for C7: the flat matrix built from [1,2,3,4] with R=C=2
gives the same products as the fixed matrix [[1,2],[3,4]]. -/
theorem claim_engines_one_contract_witness :
    ∃ A : DynMatrics Int 2 2, ∃ B : DynMatrics Int 2 2,
      DynMatrics.tryFrom ([[1, 2], [3, 4]] : List (List Int)).flatten = some A ∧
      DynMatrics.tryFrom ([[2, 0], [1, 2]] : List (List Int)).flatten = some B ∧
      ∀ i j (hi : i < 2) (hj : j < 2),
        (A.dotProduct B).data.getD (i * 2 + j) 0 =
          ((Matrix.fromRows [[1, 2], [3, 4]] : Matrix Int 2 2).dotProduct
            (Matrix.fromRows [[2, 0], [1, 2]] : Matrix Int 2 2)).data ⟨i, hi⟩ ⟨j, hj⟩ :=
  claim_engines_one_contract [[1, 2], [3, 4]] [[2, 0], [1, 2]]
    (by decide) (by decide) (by decide) (by decide)

/-- C8 counterexample: for the fixed engine, multiplying the (empty) 0×0
matrix by the 0×0 identity in parallel with one worker panics instead of
returning the matrix. -/
theorem claim_identity_cex :
    (Matrix.default : Matrix Int 0 0).dotProductInParallel
        (Matrix.identity : Matrix Int 0 0) 1 ≠
      some (Matrix.default : Matrix Int 0 0) :=
  fun h => Option.noConfusion h

/-- C8 (amended): multiplying by the appropriately-sized identity
returns the matrix unchanged: sequentially for both engines at every
shape, and in parallel for every worker count ≥ 1 — for the flat engine
at every shape, for the fixed engine whenever X ≥ 1 (at X = 0 its
parallel call panics). -/
theorem claim_identity {α : Type} [NonAssocSemiring α] (w : Nat) (hw : 1 ≤ w) :
    (∀ {X n : Nat} (m : Matrix α X n), m.dotProduct Matrix.identity = m) ∧
    (∀ {X n : Nat} (m : DynMatrics α X n), m.data.length = X * n →
      m.dotProduct DynMatrics.identity = m) ∧
    (∀ {X n : Nat} (m : DynMatrics α X n), m.data.length = X * n →
      m.dotProductInParallel DynMatrics.identity w = some m) ∧
    (∀ {X n : Nat} (m : Matrix α X n), 1 ≤ X →
      m.dotProductInParallel Matrix.identity w = some m) :=
  ⟨fun m => fixed_dot_identity m,
   fun m hm => dyn_dot_identity m hm,
   fun m hm => by rw [dyn_par_eq_seq m DynMatrics.identity w hw, dyn_dot_identity m hm],
   fun m hX => by rw [fixed_par_eq_seq m Matrix.identity w hw hX, fixed_dot_identity m]⟩

/-- Witness for C8: [1,2,3,4] (2×2 flat) times the 2×2 identity is
itself. -/
theorem claim_identity_witness :
    (DynMatrics.mk [1, 2, 3, 4] : DynMatrics Int 2 2).dotProduct DynMatrics.identity =
      DynMatrics.mk [1, 2, 3, 4] :=
  (claim_identity 1 (by decide)).2.1 (DynMatrics.mk [1, 2, 3, 4]) (by decide)

/-- C9: multiplying by the all-zero matrix of any compatible shape, on
either side and in either engine, yields the all-zero matrix of the
output shape X×Z. -/
theorem claim_zero_absorption {α : Type} [NonAssocSemiring α] {X Y Z : Nat}
    (m : Matrix α X Y) (m1 : Matrix α Y Z) (md : DynMatrics α X Y)
    (md1 : DynMatrics α Y Z) :
    (m.dotProduct (Matrix.default : Matrix α Y Z) = Matrix.default) ∧
    ((Matrix.default : Matrix α X Y).dotProduct m1 = Matrix.default) ∧
    (md.dotProduct (DynMatrics.default : DynMatrics α Y Z) = DynMatrics.default) ∧
    ((DynMatrics.default : DynMatrics α X Y).dotProduct md1 = DynMatrics.default) :=
  ⟨fixed_dot_zero_right m, fixed_dot_zero_left m1, dyn_dot_zero_right md,
    dyn_dot_zero_left md1⟩

/-- C10 counterexample: flat-layout row indexing on a zero-column matrix
does not panic out of range: row 5 of a 2×0 matrix is the valid empty
slice, not the panic the claim requires. -/
theorem claim_row_indexing_cex :
    (DynMatrics.mk [] : DynMatrics Int 2 0).row 5 = some [] ∧
    (DynMatrics.mk [] : DynMatrics Int 2 0).row 5 ≠ none :=
  ⟨rfl, fun h => Option.noConfusion h⟩

/-- C10 (amended): row indexing is bounds-checked on both engines: for
i < R it returns exactly the length-C row at row-major positions
[i*C, i*C + C); for i ≥ R the fixed engine always panics, and the flat
engine panics whenever C ≥ 1 but returns the valid empty slice when
C = 0 — in no case is data from outside the matrix returned. -/
theorem claim_row_indexing {α : Type} [Zero α] {R C : Nat}
    (m : Matrix α R C) (md : DynMatrics α R C) (hmd : md.data.length = R * C)
    (i : Nat) :
    (∀ h : i < R, m.row i = some (m.data ⟨i, h⟩)) ∧
    (R ≤ i → m.row i = none) ∧
    (i < R → ∃ r, md.row i = some r ∧ r.length = C ∧
      ∀ j, j < C → r.getD j 0 = md.data.getD (i * C + j) 0) ∧
    (R ≤ i → 1 ≤ C → md.row i = none) ∧
    (C = 0 → md.row i = some []) :=
  ⟨fun h => fixed_row_lt m i h,
   fun h => fixed_row_ge m i h,
   fun h => dyn_row_lt md hmd i h,
   fun h hC => dyn_row_ge md hmd i h hC,
   fun hC => by subst hC; exact dyn_row_zero_cols md i⟩

/-- Witness for C10: out-of-range row access on a concrete 2×2 fixed
matrix panics. -/
theorem claim_row_indexing_witness :
    (Matrix.fromRows [[1, 2], [3, 4]] : Matrix Int 2 2).row 5 = none :=
  (claim_row_indexing (Matrix.fromRows [[1, 2], [3, 4]])
    (DynMatrics.mk [1, 2, 3, 4] : DynMatrics Int 2 2) (by decide) 5).2.1 (by decide)

end MatrixDemo
